import Mathlib

/-!
Verification of the geometry-buffering core of `src/util/geo.py` (hive-py).

The Python module converts point / linestring geometries into buffered
polygons.  Its float arithmetic and its external geodesy collaborators
(geographiclib azimuths, geopy geodesic distances, pyproj Web-Mercator
transforms, `math.sqrt`) are modelled as parameters of a context
structure `GeoCtx`; every algorithmic decision of the source (filtering,
sharp-angle splitting, ring assembly, dispatch, recursion) is embedded
as an executable definition over exact rationals.
-/

namespace HivePy

/-- A coordinate pair.  In geographic space this is (longitude, latitude),
in projected space (x, y); the Python code stores both as 2-tuples. -/
abbrev Pt := ℚ × ℚ

/-- The external collaborators of `geo.py`, abstracted as pure functions:
`dist a b` models `geopy.distance.distance(reversed(a), reversed(b)).meters`,
`azi p q` models `Geodesic.WGS84.Inverse(p.lat, p.lon, q.lat, q.lon).get('azi2')`,
`toMerc` models `WGS_TO_MERCATOR.transform`, `toWgs` models
`MERCATOR_TO_WGS.transform`, and `sqrt` models `math.sqrt`. -/
structure GeoCtx where
  dist : Pt → Pt → ℚ
  azi : Pt → Pt → ℚ
  toMerc : Pt → Pt
  toWgs : Pt → Pt
  sqrt : ℚ → ℚ

/-- `DEFAULT_WIDTH = 25` from the source. -/
def DEFAULT_WIDTH : ℚ := 25

/-- `abs_angular_delta(a, b)`: `delta = abs(a - b); return delta if
delta <= 180 else 360 - delta`.  The absolute value is written out as a
conditional so that the definition evaluates by kernel reduction. -/
def abs_angular_delta (a b : ℚ) : ℚ :=
  let delta := if a - b < 0 then -(a - b) else a - b
  if delta ≤ 180 then delta else 360 - delta

/-- The conditional in `abs_angular_delta` is the absolute value. -/
lemma abs_angular_delta_abs (a b : ℚ) :
    abs_angular_delta a b = if |a - b| ≤ 180 then |a - b| else 360 - |a - b| := by
  have h : (if a - b < 0 then -(a - b) else a - b) = |a - b| := by
    rcases lt_or_le (a - b) 0 with h | h
    · rw [if_pos h, abs_of_neg h]
    · rw [if_neg (not_lt.mpr h), abs_of_nonneg h]
  simp only [abs_angular_delta, h]

/-- `angle_between_segments(p0, p1, p2)`: the angular delta of the two
forward azimuths `azi2(p0 -> p1)` and `azi2(p1 -> p2)`. -/
def angle_between_segments (ctx : GeoCtx) (p0 p1 p2 : Pt) : ℚ :=
  abs_angular_delta (ctx.azi p0 p1) (ctx.azi p1 p2)

/-- The loop of `filter_small_segments`: `prev` is the last retained
coordinate; a candidate `c` is skipped when `dist(c, prev) < min_length`,
otherwise it is appended and becomes the new `prev`. -/
def filterAux (ctx : GeoCtx) (min_length : ℚ) : Pt → List Pt → List Pt
  | _, [] => []
  | prev, c :: rest =>
    if ctx.dist c prev < min_length then filterAux ctx min_length prev rest
    else c :: filterAux ctx min_length c rest

/-- `filter_small_segments(linestring, min_length)`: returns the input
unchanged when it has fewer than 2 points, else keeps the first
coordinate and runs the retained-distance loop over the remainder. -/
def filter_small_segments (ctx : GeoCtx) (coords : List Pt) (min_length : ℚ) : List Pt :=
  match coords with
  | [] => []
  | [c] => [c]
  | c :: rest => c :: filterAux ctx min_length c rest

/-- The nested coordinates of a produced GeoJSON geometry: a Polygon
carries a list of rings, a MultiPolygon carries the coordinate arrays of
its member polygons (the source nests them by list concatenation, so a
member may itself be a multi-polygon coordinate array). -/
inductive PolyCoords where
  | polyC (rings : List (List Pt))
  | multiC (parts : List PolyCoords)

/-- A produced GeoJSON feature (`"type": "Feature", "properties": ...` with
empty properties); only the geometry content is semantically relevant. -/
structure Feature where
  geometry : PolyCoords

/-- `point_to_square(coord, width)`: projects the point, emits the four
axis-aligned corners at offsets of plus/minus `width/2`, and closes the
ring by repeating the first corner. -/
def point_to_square (ctx : GeoCtx) (coord : Pt) (width : ℚ) : Feature :=
  let half_width := width / 2
  let c := ctx.toMerc coord
  let p0 := ctx.toWgs (c.1 - half_width, c.2 - half_width)
  let p1 := ctx.toWgs (c.1 + half_width, c.2 - half_width)
  let p2 := ctx.toWgs (c.1 + half_width, c.2 + half_width)
  let p3 := ctx.toWgs (c.1 - half_width, c.2 + half_width)
  Feature.mk (PolyCoords.polyC [[p0, p1, p2, p3, p0]])

/-- The loop of `explode_sharp_angles` starting at index 2: `p2`, `p1`
are `coords[i-2]`, `coords[i-1]`, `cur` is the accumulating sub-sequence
and the fourth argument is the remaining tail `coords[i:]`.  A gentle
turn extends `cur`; a sharp turn emits `cur`, then the one-point segment
`[p1]`, then restarts from `[p1, c]`.  The final `cur` is always emitted. -/
def explodeAux (ctx : GeoCtx) (threshold : ℚ) : Pt → Pt → List Pt → List Pt → List (List Pt)
  | _, _, cur, [] => [cur]
  | p2, p1, cur, c :: rest =>
    if angle_between_segments ctx p2 p1 c ≤ threshold then
      explodeAux ctx threshold p1 c (cur ++ [c]) rest
    else
      cur :: [p1] :: explodeAux ctx threshold p1 c [p1, c] rest

/-- `explode_sharp_angles(coords, threshold = 45)`: fewer than 3 points
are returned as a single piece; otherwise the loop starts with
`cur_line = [coords[0], coords[1]]` at index 2. -/
def explode_sharp_angles (ctx : GeoCtx) (coords : List Pt) (threshold : ℚ) : List (List Pt) :=
  match coords with
  | c0 :: c1 :: c2 :: rest => explodeAux ctx threshold c0 c1 [c0, c1] (c2 :: rest)
  | _ => [coords]

/-- The per-segment offset vector of the line buffer: project both
endpoints, normalize the direction `d = p1 - p0` by `mag = sqrt(dx^2 + dy^2)`,
and return the left-hand perpendicular scaled by `half_width`:
`(nx, ny) = (-dy * half_width, dx * half_width)`. -/
def seg_normal (ctx : GeoCtx) (half_width : ℚ) (p0 p1 : Pt) : ℚ × ℚ :=
  let a := ctx.toMerc p0
  let b := ctx.toMerc p1
  let dx := b.1 - a.1
  let dy := b.2 - a.2
  let mag := ctx.sqrt (dx ^ 2 + dy ^ 2)
  (-(dy / mag) * half_width, (dx / mag) * half_width)

/-- Project `p`, displace it by the planar vector `n`, and convert back:
`MERCATOR_TO_WGS.transform(px + nx, py + ny)`. -/
def off_pt (ctx : GeoCtx) (p n : Pt) : Pt :=
  let q := ctx.toMerc p
  ctx.toWgs (q.1 + n.1, q.2 + n.2)

/-- One offset chain of the line-buffer loop (`for i in range(1, len(...))`):
for each vertex `c` preceded by `prev`, the entry is `c` displaced by
`s * n` where `n` is the normal of the segment `(prev, c)`; the source
writes the `s = 1` entries at indices `1..L-1` and the `s = -1` entries at
indices `n-2..n-L` of the output array. -/
def offset_chain (ctx : GeoCtx) (hw s : ℚ) : Pt → List Pt → List Pt
  | _, [] => []
  | prev, c :: rest =>
    off_pt ctx c (s * (seg_normal ctx hw prev c).1, s * (seg_normal ctx hw prev c).2) ::
      offset_chain ctx hw s c rest

/-- The ring assembled by the single-pass branch of
`geojson_linestring_to_poly` for a coordinate list `c0 :: c1 :: rest`
(length `L`), written as a list instead of the source's index-filled array
of size `2L + 1`: index `0` is `c0 + n1` (`n1` from segment `(c0, c1)`),
indices `1..L-1` are the forward chain, indices `L..2L-2` are the reversed
backward chain, index `2L-1` is `c0 - n1`, and index `2L` repeats index 0. -/
def buffer_ring (ctx : GeoCtx) (cs : List Pt) (hw : ℚ) : List Pt :=
  match cs with
  | c0 :: c1 :: rest =>
    let n1 := seg_normal ctx hw c0 c1
    let hd := off_pt ctx c0 (n1.1, n1.2)
    let tl := off_pt ctx c0 (-n1.1, -n1.2)
    (hd :: offset_chain ctx hw 1 c0 (c1 :: rest)) ++
      ((tl :: offset_chain ctx hw (-1) c0 (c1 :: rest)).reverse ++ [hd])
  | _ => []

/-- Sequencing of a Python list comprehension whose body may raise:
the first exception (modelled as `none`) propagates. -/
def mapOption {α β : Type} (f : α → Option β) : List α → Option (List β)
  | [] => some []
  | a :: as =>
    match f a, mapOption f as with
    | some b, some bs => some (b :: bs)
    | _, _ => none

/-- `geojson_linestring_to_poly`, with an explicit recursion budget.
Each body evaluation follows the source: filter at `min_length = width`;
if fewer than 2 points remain, index 0 of the filtered list is turned
into a square (`none` models the IndexError on an empty list); otherwise
split at sharp angles (threshold 45); with more than one piece, each
piece is converted by a recursive call — the source invokes
`geojson_linestring_to_poly(line)` without the width argument, so the
recursion uses `DEFAULT_WIDTH` — and the coordinate arrays are collected
into a MultiPolygon; with a single piece the offset ring is emitted as a
Polygon.  Every recursive argument is strictly shorter than `coords`
(`explode_piece_lt` below), so a budget of `coords.length` never runs
out on a nonempty input. -/
def polyFuel (ctx : GeoCtx) : ℕ → List Pt → ℚ → Option Feature
  | 0, _, _ => none
  | fuel + 1, coords, width =>
    if (filter_small_segments ctx coords width).length < 2 then
      (filter_small_segments ctx coords width).head?.map
        (fun c => point_to_square ctx c width)
    else if 1 < (explode_sharp_angles ctx (filter_small_segments ctx coords width) 45).length then
      (mapOption (fun l => polyFuel ctx fuel l DEFAULT_WIDTH)
          (explode_sharp_angles ctx (filter_small_segments ctx coords width) 45)).map
        (fun polys => Feature.mk (PolyCoords.multiC (polys.map Feature.geometry)))
    else
      some (Feature.mk (PolyCoords.polyC
        [buffer_ring ctx (filter_small_segments ctx coords width) (width / 2)]))

/-- `geojson_linestring_to_poly(linestring, width = DEFAULT_WIDTH)`:
the fuel `coords.length` is provably sufficient (`polyFuel_eq_of_le`). -/
def geojson_linestring_to_poly (ctx : GeoCtx) (coords : List Pt) (width : ℚ) : Option Feature :=
  polyFuel ctx coords.length coords width

/-- `geojson_point_to_poly(point, width = DEFAULT_WIDTH)`. -/
def geojson_point_to_poly (ctx : GeoCtx) (coord : Pt) (width : ℚ) : Feature :=
  point_to_square ctx coord width

/-- The tagged input geometry variants of the dispatcher (`geom['type']`);
`other` stands for any unsupported tag such as `GeometryCollection`. -/
inductive Geometry where
  | point (c : Pt)
  | lineString (cs : List Pt)
  | polygon (rings : List (List Pt))
  | multiPolygon (polys : List (List (List Pt)))
  | other (kind : String)

/-- The exceptions `convert_to_geojson_poly` can raise: the explicit
`Exception('Unsupported type: ...')` carrying the offending kind, and the
IndexError reachable through an empty LineString. -/
inductive ConvErr where
  | unsupported (kind : String)
  | indexError

/-- The dispatcher's successful result: a freshly built Feature (point and
linestring branches) or the input geometry object itself (passthrough). -/
inductive ConvOut where
  | featureOut (f : Feature)
  | passthrough (g : Geometry)

/-- `convert_to_geojson_poly(feature, width = DEFAULT_WIDTH)`. -/
def convert_to_geojson_poly (ctx : GeoCtx) (g : Geometry) (width : ℚ) : Except ConvErr ConvOut :=
  match g with
  | .lineString cs =>
    match geojson_linestring_to_poly ctx cs width with
    | some f => .ok (.featureOut f)
    | none => .error .indexError
  | .point c => .ok (.featureOut (geojson_point_to_poly ctx c width))
  | .polygon rings => .ok (.passthrough (.polygon rings))
  | .multiPolygon ps => .ok (.passthrough (.multiPolygon ps))
  | .other k => .error (.unsupported k)

mutual

/-- All linear rings contained in a produced coordinate structure. -/
def PolyCoords.rings : PolyCoords → List (List Pt)
  | .polyC rs => rs
  | .multiC ps => ringsList ps

/-- All linear rings of a list of produced coordinate structures. -/
def ringsList : List PolyCoords → List (List Pt)
  | [] => []
  | p :: ps => p.rings ++ ringsList ps

end

/-- A concrete context used to exercise the definitions: identity
projections, a constant geodesic distance of 1000, constant azimuth 0
(so no turn is ever sharp), and a square root defined on the perfect
squares that occur in the tests. -/
def ctx0 : GeoCtx where
  dist := fun _ _ => 1000
  azi := fun _ _ => 0
  toMerc := fun p => p
  toWgs := fun p => p
  sqrt := fun q => if q = 25 then 5 else if q = 16 then 4 else 1

/-- A concrete context whose azimuths make exactly the turns away from the
origin sharp: the bearing out of `(0, 0)` is 0 and every other bearing is
90, so a path leaving the origin and then turning has a 90-degree turn. -/
def ctxSharp : GeoCtx where
  dist := fun _ _ => 1000
  azi := fun p _ => if p = ((0 : ℚ), (0 : ℚ)) then 0 else 90
  toMerc := fun p => p
  toWgs := fun p => p
  sqrt := fun q => if q = 25 then 5 else if q = 16 then 4 else 1

/-- The filtering loop produces a sublist of its input. -/
lemma filterAux_sublist (ctx : GeoCtx) (m : ℚ) :
    ∀ (l : List Pt) (prev : Pt), (filterAux ctx m prev l).Sublist l := by
  intro l
  induction l with
  | nil => intro prev; simp [filterAux]
  | cons c rest ih =>
    intro prev
    rw [filterAux]
    split_ifs with h
    · exact (ih prev).cons c
    · exact (ih c).cons₂ c

/-- `filter_small_segments` produces a sublist of its input. -/
lemma filter_sublist (ctx : GeoCtx) (coords : List Pt) (m : ℚ) :
    (filter_small_segments ctx coords m).Sublist coords := by
  rcases coords with _ | ⟨c0, _ | ⟨c1, rest⟩⟩
  · simp [filter_small_segments]
  · simp [filter_small_segments]
  · exact (filterAux_sublist ctx m (c1 :: rest) c0).cons₂ c0

/-- Filtering never lengthens the list. -/
lemma filter_length_le (ctx : GeoCtx) (coords : List Pt) (m : ℚ) :
    (filter_small_segments ctx coords m).length ≤ coords.length :=
  (filter_sublist ctx coords m).length_le

/-- Every piece emitted by the splitting loop is at most as long as the
remaining input (current sub-sequence plus unvisited tail). -/
lemma explodeAux_piece_le (ctx : GeoCtx) (th : ℚ) :
    ∀ (rest : List Pt) (p2 p1 : Pt) (cur : List Pt), 1 ≤ cur.length →
      ∀ l ∈ explodeAux ctx th p2 p1 cur rest, l.length ≤ cur.length + rest.length := by
  intro rest
  induction rest with
  | nil =>
    intro p2 p1 cur hc l hl
    simp only [explodeAux, List.mem_singleton] at hl
    simp [hl]
  | cons c rs ih =>
    intro p2 p1 cur hc l hl
    rw [explodeAux] at hl
    split_ifs at hl with hθ
    · have := ih p1 c (cur ++ [c]) (by simp) l hl
      simp only [List.length_append, List.length_singleton, List.length_cons, List.length_nil] at this ⊢
      omega
    · simp only [List.mem_cons] at hl
      rcases hl with rfl | rfl | hl
      · simp only [List.length_cons]; omega
      · simp only [List.length_cons, List.length_nil]; omega
      · have := ih p1 c [p1, c] (by simp) l hl
        simp only [List.length_cons, List.length_nil] at this ⊢
        omega

/-- When the splitter emits more than one piece, every piece is strictly
shorter than the input it was cut from. -/
lemma explodeAux_piece_lt (ctx : GeoCtx) (th : ℚ) :
    ∀ (rest : List Pt) (p2 p1 : Pt) (cur : List Pt), 2 ≤ cur.length →
      2 ≤ (explodeAux ctx th p2 p1 cur rest).length →
      ∀ l ∈ explodeAux ctx th p2 p1 cur rest, l.length < cur.length + rest.length := by
  intro rest
  induction rest with
  | nil =>
    intro p2 p1 cur hc hlen l hl
    simp [explodeAux] at hlen
  | cons c rs ih =>
    intro p2 p1 cur hc hlen l hl
    rw [explodeAux] at hlen hl
    split_ifs at hlen hl with hθ
    · have := ih p1 c (cur ++ [c]) (by simp; omega) hlen l hl
      simp only [List.length_append, List.length_singleton, List.length_cons, List.length_nil] at this ⊢
      omega
    · simp only [List.mem_cons] at hl
      rcases hl with rfl | rfl | hl
      · simp only [List.length_cons]; omega
      · simp only [List.length_cons, List.length_nil]; omega
      · have := explodeAux_piece_le ctx th rs p1 c [p1, c] (by simp) l hl
        simp only [List.length_cons, List.length_nil] at this ⊢
        omega

/-- If `explode_sharp_angles` split the line (more than one piece), every
piece is strictly shorter than the input. -/
lemma explode_piece_lt (ctx : GeoCtx) (cs : List Pt) (th : ℚ)
    (h : 2 ≤ (explode_sharp_angles ctx cs th).length) :
    ∀ l ∈ explode_sharp_angles ctx cs th, l.length < cs.length := by
  rcases cs with _ | ⟨c0, _ | ⟨c1, _ | ⟨c2, rest⟩⟩⟩
  · simp [explode_sharp_angles] at h
  · simp [explode_sharp_angles] at h
  · simp [explode_sharp_angles] at h
  · intro l hl
    rw [explode_sharp_angles] at h hl
    have := explodeAux_piece_lt ctx th (c2 :: rest) c0 c1 [c0, c1] (by simp) h l hl
    simp only [List.length_cons, List.length_nil] at this ⊢
    omega

/-- Congruence for `mapOption`. -/
lemma mapOption_congr {α β : Type} (f g : α → Option β) :
    ∀ (l : List α), (∀ a ∈ l, f a = g a) → mapOption f l = mapOption g l := by
  intro l
  induction l with
  | nil => intro _; rfl
  | cons a as ih =>
    intro h
    simp only [mapOption]
    rw [h a (by simp), ih (fun x hx => h x (by simp [hx]))]

/-- Every element of a successful `mapOption` run comes from a successful
application of `f` to some element of the input list. -/
lemma mapOption_mem {α β : Type} (f : α → Option β) :
    ∀ (l : List α) (res : List β), mapOption f l = some res →
      ∀ b ∈ res, ∃ a ∈ l, f a = some b := by
  intro l
  induction l with
  | nil =>
    intro res h b hb
    simp only [mapOption, Option.some.injEq] at h
    subst h
    simp at hb
  | cons a as ih =>
    intro res h b hb
    simp only [mapOption] at h
    rcases hfa : f a with _ | y <;> rw [hfa] at h
    · simp at h
    · rcases has : mapOption f as with _ | ys <;> rw [has] at h
      · simp at h
      · simp only [Option.some.injEq] at h
        subst h
        rcases List.mem_cons.mp hb with rfl | hb
        · exact ⟨a, by simp, hfa⟩
        · obtain ⟨x, hx, hfx⟩ := ih ys has b hb
          exact ⟨x, by simp [hx], hfx⟩

/-- The recursion budget is irrelevant once it reaches the input length:
`polyFuel` computes the same value for any two sufficient budgets.  This
justifies using `coords.length` as the budget in
`geojson_linestring_to_poly`. -/
lemma polyFuel_eq_of_le (ctx : GeoCtx) :
    ∀ (f g : ℕ) (cs : List Pt) (w : ℚ), cs.length ≤ f → cs.length ≤ g →
      polyFuel ctx f cs w = polyFuel ctx g cs w := by
  intro f
  induction f with
  | zero =>
    intro g cs w hf hg
    have : cs = [] := List.length_eq_zero.mp (Nat.le_zero.mp hf)
    subst this
    rcases g with _ | g
    · rfl
    · simp [polyFuel, filter_small_segments]
  | succ f ih =>
    intro g cs w hf hg
    rcases cs with _ | ⟨c0, cs⟩
    · rcases g with _ | g
      · simp [polyFuel, filter_small_segments]
      · simp [polyFuel, filter_small_segments]
    · rcases g with _ | g
      · simp at hg
      · rw [polyFuel, polyFuel]
        by_cases h2 : (filter_small_segments ctx (c0 :: cs) w).length < 2
        · rw [if_pos h2, if_pos h2]
        · rw [if_neg h2, if_neg h2]
          by_cases h3 :
              1 < (explode_sharp_angles ctx (filter_small_segments ctx (c0 :: cs) w) 45).length
          · rw [if_pos h3, if_pos h3]
            have hcong :
                mapOption (fun l => polyFuel ctx f l DEFAULT_WIDTH)
                    (explode_sharp_angles ctx (filter_small_segments ctx (c0 :: cs) w) 45) =
                mapOption (fun l => polyFuel ctx g l DEFAULT_WIDTH)
                    (explode_sharp_angles ctx (filter_small_segments ctx (c0 :: cs) w) 45) := by
              apply mapOption_congr
              intro l hl
              have hlt := explode_piece_lt ctx (filter_small_segments ctx (c0 :: cs) w) 45
                (by omega) l hl
              have hle := filter_length_le ctx (c0 :: cs) w
              have hcl : (c0 :: cs).length = cs.length + 1 := by simp
              exact ih g l DEFAULT_WIDTH (by omega) (by omega)
            rw [hcong]
          · rw [if_neg h3, if_neg h3]

/-- The single-pass offset ring starts and ends with the same coordinate. -/
lemma buffer_ring_closed (ctx : GeoCtx) (cs : List Pt) (hw : ℚ) :
    (buffer_ring ctx cs hw).head? = (buffer_ring ctx cs hw).getLast? := by
  rcases cs with _ | ⟨c0, _ | ⟨c1, rest⟩⟩
  · rfl
  · rfl
  · simp only [buffer_ring]
    rw [← List.append_assoc, List.getLast?_concat]
    rfl

/-- Membership in the collected rings of a list of coordinate structures. -/
lemma mem_ringsList (r : List Pt) :
    ∀ (ps : List PolyCoords), r ∈ ringsList ps ↔ ∃ p ∈ ps, r ∈ p.rings := by
  intro ps
  induction ps with
  | nil => simp [ringsList]
  | cons p ps ih =>
    simp only [ringsList, List.mem_append, ih, List.mem_cons]
    constructor
    · rintro (h | ⟨q, hq, hr⟩)
      · exact ⟨p, Or.inl rfl, h⟩
      · exact ⟨q, Or.inr hq, hr⟩
    · rintro ⟨q, rfl | hq, hr⟩
      · exact Or.inl hr
      · exact Or.inr ⟨q, hq, hr⟩

/-- Every ring occurring anywhere in a conversion result is closed. -/
lemma polyFuel_rings_closed (ctx : GeoCtx) :
    ∀ (fuel : ℕ) (cs : List Pt) (w : ℚ) (feat : Feature),
      polyFuel ctx fuel cs w = some feat →
      ∀ r ∈ feat.geometry.rings, r.head? = r.getLast? := by
  intro fuel
  induction fuel with
  | zero =>
    intro cs w feat h
    exact absurd h (by simp [polyFuel])
  | succ fuel ih =>
    intro cs w feat h
    rw [polyFuel] at h
    by_cases h2 : (filter_small_segments ctx cs w).length < 2
    · rw [if_pos h2] at h
      rcases hh : (filter_small_segments ctx cs w).head? with _ | c <;> rw [hh] at h
      · simp at h
      · simp only [Option.map_some', Option.some.injEq] at h
        subst h
        intro r hr
        simp only [point_to_square, PolyCoords.rings, List.mem_singleton] at hr
        subst hr
        rfl
    · rw [if_neg h2] at h
      by_cases h3 :
          1 < (explode_sharp_angles ctx (filter_small_segments ctx cs w) 45).length
      · rw [if_pos h3] at h
        rcases hm : mapOption (fun l => polyFuel ctx fuel l DEFAULT_WIDTH)
            (explode_sharp_angles ctx (filter_small_segments ctx cs w) 45) with _ | polys <;>
          rw [hm] at h
        · simp at h
        · simp only [Option.map_some', Option.some.injEq] at h
          subst h
          intro r hr
          simp only [PolyCoords.rings] at hr
          obtain ⟨p, hp, hrp⟩ := (mem_ringsList r _).mp hr
          obtain ⟨f, hf, rfl⟩ := List.mem_map.mp hp
          obtain ⟨l, hl, hfl⟩ := mapOption_mem _ _ polys hm f hf
          exact ih l DEFAULT_WIDTH f hfl r hrp
      · rw [if_neg h3] at h
        simp only [Option.some.injEq] at h
        subst h
        intro r hr
        simp only [PolyCoords.rings, List.mem_singleton] at hr
        subst hr
        exact buffer_ring_closed ctx _ _

/-- An offset chain has one entry per input vertex. -/
lemma offset_chain_length (ctx : GeoCtx) (hw s : ℚ) :
    ∀ (l : List Pt) (prev : Pt), (offset_chain ctx hw s prev l).length = l.length := by
  intro l
  induction l with
  | nil => intro prev; rfl
  | cons c rs ih => intro prev; simp [offset_chain, ih]

/-- Entry `j` of an offset chain is vertex `l[j]` displaced by `s` times
the normal of the segment from its predecessor (`prev` for `j = 0`). -/
lemma offset_chain_getElem (ctx : GeoCtx) (hw s : ℚ) :
    ∀ (j : ℕ) (l : List Pt) (prev : Pt), j < l.length →
      (offset_chain ctx hw s prev l)[j]? =
        some (off_pt ctx (l.getD j (0, 0))
          (s * (seg_normal ctx hw ((prev :: l).getD j (0, 0)) (l.getD j (0, 0))).1,
           s * (seg_normal ctx hw ((prev :: l).getD j (0, 0)) (l.getD j (0, 0))).2)) := by
  intro j
  induction j with
  | zero =>
    intro l prev hj
    rcases l with _ | ⟨c, rs⟩
    · simp at hj
    · simp [offset_chain]
  | succ j ih =>
    intro l prev hj
    rcases l with _ | ⟨c, rs⟩
    · simp at hj
    · simp only [offset_chain, List.getElem?_cons_succ, List.getD_cons_succ]
      exact ih rs c (by simpa using hj)

/-- C9: for bearings `a, b` in `[0, 360)`, `abs_angular_delta` computes
`min (|a - b|) (360 - |a - b|)`, its value lies in `[0, 180]`, and it is
symmetric in its arguments. -/
theorem C9_angular_delta (a b : ℚ) (ha0 : 0 ≤ a) (ha1 : a < 360) (hb0 : 0 ≤ b) (hb1 : b < 360) :
    abs_angular_delta a b = min |a - b| (360 - |a - b|) ∧
    0 ≤ abs_angular_delta a b ∧ abs_angular_delta a b ≤ 180 ∧
    abs_angular_delta a b = abs_angular_delta b a := by
  have hd0 : 0 ≤ |a - b| := abs_nonneg _
  have hd1 : |a - b| < 360 := by
    rw [abs_lt]; constructor <;> linarith
  have hcomm : |a - b| = |b - a| := abs_sub_comm a b
  by_cases h : |a - b| ≤ 180
  · refine ⟨?_, ?_, ?_, ?_⟩ <;> simp only [abs_angular_delta_abs, if_pos h]
    · exact (min_eq_left (by linarith)).symm
    · exact hd0
    · exact h
    · rw [← hcomm, if_pos h]
  · refine ⟨?_, ?_, ?_, ?_⟩ <;> simp only [abs_angular_delta_abs, if_neg h]
    · exact (min_eq_right (by linarith)).symm
    · linarith
    · linarith [not_le.mp h]
    · rw [← hcomm, if_neg h]

/-- Witness for C9 at the concrete bearings a = 10, b = 350. -/
theorem C9_angular_delta_witness :
    abs_angular_delta 10 350 = min |(10 : ℚ) - 350| (360 - |(10 : ℚ) - 350|) ∧
    0 ≤ abs_angular_delta 10 350 ∧ abs_angular_delta 10 350 ≤ 180 ∧
    abs_angular_delta 10 350 = abs_angular_delta 350 10 :=
  C9_angular_delta 10 350 (by norm_num) (by norm_num) (by norm_num) (by norm_num)

/-- C6: the segment filter returns inputs of fewer than 2 points
unchanged; otherwise its output is a subsequence of the input that keeps
the first element, and the loop retains a candidate exactly when its
distance from the most recently retained coordinate is at least
`min_length`. -/
theorem C6_filter_spec (ctx : GeoCtx) (cs : List Pt) (m : ℚ) :
    (cs.length < 2 → filter_small_segments ctx cs m = cs) ∧
    (filter_small_segments ctx cs m).Sublist cs ∧
    (cs ≠ [] → (filter_small_segments ctx cs m).head? = cs.head?) ∧
    (∀ (prev c : Pt) (rest : List Pt),
      filterAux ctx m prev (c :: rest) =
        if m ≤ ctx.dist c prev then c :: filterAux ctx m c rest
        else filterAux ctx m prev rest) := by
  refine ⟨?_, filter_sublist ctx cs m, ?_, ?_⟩
  · intro h
    rcases cs with _ | ⟨c0, _ | ⟨c1, rest⟩⟩
    · rfl
    · rfl
    · simp only [List.length_cons] at h
      omega
  · intro h
    rcases cs with _ | ⟨c0, _ | ⟨c1, rest⟩⟩
    · exact absurd rfl h
    · rfl
    · rfl
  · intro prev c rest
    rw [filterAux]
    rcases lt_or_le (ctx.dist c prev) m with hd | hd
    · rw [if_pos hd, if_neg (not_le.mpr hd)]
    · rw [if_neg (not_lt.mpr hd), if_pos hd]

/-- Witness for C6 on a concrete one-point list and a concrete loop step. -/
theorem C6_filter_spec_witness :
    filter_small_segments ctx0 [((1 : ℚ), (2 : ℚ))] 5 = [((1 : ℚ), (2 : ℚ))] ∧
    (filter_small_segments ctx0 [((1 : ℚ), (2 : ℚ))] 5).Sublist [((1 : ℚ), (2 : ℚ))] ∧
    (filter_small_segments ctx0 [((1 : ℚ), (2 : ℚ))] 5).head? = some ((1 : ℚ), (2 : ℚ)) ∧
    filterAux ctx0 5 ((0 : ℚ), (0 : ℚ)) [((1 : ℚ), (2 : ℚ))] =
      (if (5 : ℚ) ≤ ctx0.dist ((1 : ℚ), (2 : ℚ)) ((0 : ℚ), (0 : ℚ)) then
        ((1 : ℚ), (2 : ℚ)) :: filterAux ctx0 5 ((1 : ℚ), (2 : ℚ)) []
      else filterAux ctx0 5 ((0 : ℚ), (0 : ℚ)) []) := by
  obtain ⟨h1, h2, h3, h4⟩ := C6_filter_spec ctx0 [((1 : ℚ), (2 : ℚ))] 5
  exact ⟨h1 (by decide), h2, h3 (by decide), h4 ((0 : ℚ), (0 : ℚ)) ((1 : ℚ), (2 : ℚ)) []⟩

/-- C7: a 3-point sequence whose middle turn exceeds the threshold is
split into exactly the three pieces `[p0, p1]`, `[p1]`, `[p1, p2]`. -/
theorem C7_three_point_split (ctx : GeoCtx) (th : ℚ) (p0 p1 p2 : Pt)
    (h : th < angle_between_segments ctx p0 p1 p2) :
    explode_sharp_angles ctx [p0, p1, p2] th = [[p0, p1], [p1], [p1, p2]] := by
  simp only [explode_sharp_angles, explodeAux, if_neg (not_le.mpr h)]

/-- Witness for C7: a concrete 90-degree turn against the 45 threshold. -/
theorem C7_three_point_split_witness :
    explode_sharp_angles ctxSharp
        [((0 : ℚ), (0 : ℚ)), ((3 : ℚ), (4 : ℚ)), ((8 : ℚ), (4 : ℚ))] 45 =
      [[((0 : ℚ), (0 : ℚ)), ((3 : ℚ), (4 : ℚ))], [((3 : ℚ), (4 : ℚ))],
        [((3 : ℚ), (4 : ℚ)), ((8 : ℚ), (4 : ℚ))]] :=
  C7_three_point_split ctxSharp 45 _ _ _ (by with_unfolding_all decide)

/-- C3 counterexample: at a sharp vertex the piece that is closed and
emitted does contain the sharp vertex (it is its last element).  For the
concrete run below the sharp vertex is `(2, 0)` and the first emitted
piece `[(0, 0), (2, 0)]` contains it, contradicting the claim that the
emitted sub-sequence excludes the sharp vertex. -/
theorem C3_counterexample :
    explode_sharp_angles ctxSharp
        [((0 : ℚ), (0 : ℚ)), ((2 : ℚ), (0 : ℚ)), ((2 : ℚ), (2 : ℚ))] 45 =
      [[((0 : ℚ), (0 : ℚ)), ((2 : ℚ), (0 : ℚ))], [((2 : ℚ), (0 : ℚ))],
        [((2 : ℚ), (0 : ℚ)), ((2 : ℚ), (2 : ℚ))]] ∧
    ((2 : ℚ), (0 : ℚ)) ∈ (explode_sharp_angles ctxSharp
        [((0 : ℚ), (0 : ℚ)), ((2 : ℚ), (0 : ℚ)), ((2 : ℚ), (2 : ℚ))] 45).headD [] := by
  with_unfolding_all decide

/-- C3 (amended): when the splitting loop meets a sharp turn at `p1`, the
sub-sequence it closes and emits contains the sharp vertex `p1` (as its
last element — the invariant of the loop is that the accumulating
sub-sequence always ends with the previous vertex); it then emits the
one-point sub-sequence `[p1]` and restarts from `[p1, c]` where `c` is
the current point. -/
theorem C3_amended_split_step (ctx : GeoCtx) (th : ℚ) (p2 p1 c : Pt)
    (rest cur : List Pt) (hlast : cur.getLast? = some p1)
    (hsharp : th < angle_between_segments ctx p2 p1 c) :
    explodeAux ctx th p2 p1 cur (c :: rest) =
      cur :: [p1] :: explodeAux ctx th p1 c [p1, c] rest ∧
    p1 ∈ cur := by
  refine ⟨?_, List.mem_of_mem_getLast? (by rw [hlast]; rfl)⟩
  rw [explodeAux, if_neg (not_le.mpr hsharp)]

/-- Witness for C3 (amended) at a concrete sharp split state. -/
theorem C3_amended_split_step_witness :
    explodeAux ctxSharp 45 ((0 : ℚ), (0 : ℚ)) ((2 : ℚ), (0 : ℚ))
        [((0 : ℚ), (0 : ℚ)), ((2 : ℚ), (0 : ℚ))] [((2 : ℚ), (2 : ℚ))] =
      [((0 : ℚ), (0 : ℚ)), ((2 : ℚ), (0 : ℚ))] :: [((2 : ℚ), (0 : ℚ))] ::
        explodeAux ctxSharp 45 ((2 : ℚ), (0 : ℚ)) ((2 : ℚ), (2 : ℚ))
          [((2 : ℚ), (0 : ℚ)), ((2 : ℚ), (2 : ℚ))] [] ∧
    ((2 : ℚ), (0 : ℚ)) ∈ [((0 : ℚ), (0 : ℚ)), ((2 : ℚ), (0 : ℚ))] :=
  C3_amended_split_step ctxSharp 45 _ _ _ _ _ (by decide) (by with_unfolding_all decide)

/-- C4 counterexample: on an empty coordinate sequence the line-buffer
operation does not return a square — it fails (the source evaluates
`filtered_coords[0]` on an empty list, an IndexError, modelled as `none`). -/
theorem C4_counterexample_empty :
    geojson_linestring_to_poly ctx0 ([] : List Pt) 25 = none := rfl

/-- C4 (amended): if the input is nonempty and fewer than 2 points remain
after filtering, exactly one point remains (the first) and the operation
returns its point-buffer square; on the empty coordinate sequence the
operation fails instead of returning a square. -/
theorem C4_amended_single_point :
    (∀ (ctx : GeoCtx) (cs : List Pt) (w : ℚ), cs ≠ [] →
      (filter_small_segments ctx cs w).length < 2 →
      filter_small_segments ctx cs w = [cs.headD (0, 0)] ∧
      geojson_linestring_to_poly ctx cs w =
        some (point_to_square ctx (cs.headD (0, 0)) w)) ∧
    (∀ (ctx : GeoCtx) (w : ℚ),
      geojson_linestring_to_poly ctx ([] : List Pt) w = none) := by
  constructor
  · intro ctx cs w hne h2
    rcases cs with _ | ⟨c0, rest⟩
    · exact absurd rfl hne
    · have hf : filter_small_segments ctx (c0 :: rest) w = [c0] := by
        rcases rest with _ | ⟨c1, rest2⟩
        · rfl
        · have hz : filterAux ctx w c0 (c1 :: rest2) = [] := by
            simp only [filter_small_segments, List.length_cons] at h2
            exact List.length_eq_zero.mp (by omega)
          simp only [filter_small_segments, hz]
      refine ⟨hf, ?_⟩
      rw [geojson_linestring_to_poly]
      show polyFuel ctx (rest.length + 1) (c0 :: rest) w = _
      rw [polyFuel, if_pos h2, hf]
      rfl
  · intro ctx w
    rfl

/-- Witness for C4 (amended) on a concrete one-point linestring. -/
theorem C4_amended_single_point_witness :
    filter_small_segments ctx0 [((3 : ℚ), (4 : ℚ))] 7 = [((3 : ℚ), (4 : ℚ))] ∧
    geojson_linestring_to_poly ctx0 [((3 : ℚ), (4 : ℚ))] 7 =
      some (point_to_square ctx0 ((3 : ℚ), (4 : ℚ)) 7) :=
  C4_amended_single_point.1 ctx0 [((3 : ℚ), (4 : ℚ))] 7 (by decide) (by decide)

/-- C8: the dispatcher raises the kind-identifying error exactly for
geometry kinds other than Point, LineString, Polygon and MultiPolygon,
and in that case produces no output value (the result is the error). -/
theorem C8_unsupported_error_iff (ctx : GeoCtx) (g : Geometry) (w : ℚ) :
    ((∃ k, convert_to_geojson_poly ctx g w = Except.error (ConvErr.unsupported k)) ↔
      (∃ k, g = Geometry.other k)) ∧
    (∀ k, convert_to_geojson_poly ctx (Geometry.other k) w =
      Except.error (ConvErr.unsupported k)) := by
  constructor
  · constructor
    · rintro ⟨k, hk⟩
      cases g with
      | point c => simp [convert_to_geojson_poly] at hk
      | lineString cs =>
        rcases hp : geojson_linestring_to_poly ctx cs w with _ | f <;>
          simp [convert_to_geojson_poly, hp] at hk
      | polygon rs => simp [convert_to_geojson_poly] at hk
      | multiPolygon ps => simp [convert_to_geojson_poly] at hk
      | other k2 => exact ⟨k2, rfl⟩
    · rintro ⟨k, rfl⟩
      exact ⟨k, rfl⟩
  · intro k
    rfl

/-- C10: Polygon and MultiPolygon inputs pass through the dispatcher
unchanged — the returned geometry is the input geometry itself. -/
theorem C10_passthrough (ctx : GeoCtx) (w : ℚ) (rings : List (List Pt))
    (polys : List (List (List Pt))) :
    convert_to_geojson_poly ctx (Geometry.polygon rings) w =
      Except.ok (ConvOut.passthrough (Geometry.polygon rings)) ∧
    convert_to_geojson_poly ctx (Geometry.multiPolygon polys) w =
      Except.ok (ConvOut.passthrough (Geometry.multiPolygon polys)) :=
  ⟨rfl, rfl⟩

/-- C5: every produced ring is closed (first coordinate equals last
coordinate exactly): the point-buffer square (also the 1-point case, with
5 entries), the single-pass offset ring, and every ring occurring in any
line-buffer result, including each ring of a MultiPolygon produced after
sharp-angle splitting; a 2-point input yields a 5-entry ring. -/
theorem C5_rings_closed (ctx : GeoCtx) :
    (∀ (c : Pt) (w : ℚ), ∃ ring,
      (point_to_square ctx c w).geometry = PolyCoords.polyC [ring] ∧
      ring.head? = ring.getLast? ∧ ring.length = 5) ∧
    (∀ (cs : List Pt) (hw : ℚ),
      (buffer_ring ctx cs hw).head? = (buffer_ring ctx cs hw).getLast?) ∧
    (∀ (cs : List Pt) (hw : ℚ), cs.length = 2 → (buffer_ring ctx cs hw).length = 5) ∧
    (∀ (cs : List Pt) (w : ℚ) (feat : Feature),
      geojson_linestring_to_poly ctx cs w = some feat →
      ∀ r ∈ feat.geometry.rings, r.head? = r.getLast?) := by
  refine ⟨?_, buffer_ring_closed ctx, ?_, ?_⟩
  · intro c w
    exact ⟨_, rfl, rfl, rfl⟩
  · intro cs hw h2
    rcases cs with _ | ⟨c0, _ | ⟨c1, _ | ⟨c2, rest⟩⟩⟩
    · simp at h2
    · simp at h2
    · simp [buffer_ring, offset_chain]
    · simp only [List.length_cons] at h2
      omega
  · intro cs w feat h
    exact polyFuel_rings_closed ctx cs.length cs w feat h

/-- Witness for C5: a concrete point square, a concrete 2-point ring
length, and the closure of the rings of a concretely computed feature. -/
theorem C5_rings_closed_witness :
    (∃ ring, (point_to_square ctx0 ((7 : ℚ), (7 : ℚ)) 4).geometry = PolyCoords.polyC [ring] ∧
      ring.head? = ring.getLast? ∧ ring.length = 5) ∧
    (buffer_ring ctx0 [((0 : ℚ), (0 : ℚ)), ((0 : ℚ), (5 : ℚ))] 1).length = 5 ∧
    (∀ r ∈ (Feature.mk (PolyCoords.polyC
        [[((-1 : ℚ), (0 : ℚ)), ((-1 : ℚ), (5 : ℚ)), ((1 : ℚ), (5 : ℚ)), ((1 : ℚ), (0 : ℚ)),
          ((-1 : ℚ), (0 : ℚ))]])).geometry.rings, r.head? = r.getLast?) := by
  obtain ⟨h1, _, h3, h4⟩ := C5_rings_closed ctx0
  refine ⟨h1 ((7 : ℚ), (7 : ℚ)) 4, h3 [((0 : ℚ), (0 : ℚ)), ((0 : ℚ), (5 : ℚ))] 1 rfl, ?_⟩
  exact h4 [((0 : ℚ), (0 : ℚ)), ((0 : ℚ), (5 : ℚ))] 2 _ (by with_unfolding_all rfl)

/-- C2 counterexample: for the already-filtered, no-sharp-turn sequence
`[(0,0), (4,0), (8,3)]` with width 2 (half-width 1), the backward-chain
entry of the interior vertex `(4,0)` (ring index `2L - 1 - i = 4`) is
`(4, -1)`, the vertex displaced by minus the normal of the segment
`(0,0) -> (4,0)` ending at it — not, as claimed, by minus the normal of
the segment `(4,0) -> (8,3)` starting at it, which would give
`(23/5, -4/5)`. -/
theorem C2_counterexample :
    filter_small_segments ctx0 [((0 : ℚ), (0 : ℚ)), ((4 : ℚ), (0 : ℚ)), ((8 : ℚ), (3 : ℚ))] 2 =
      [((0 : ℚ), (0 : ℚ)), ((4 : ℚ), (0 : ℚ)), ((8 : ℚ), (3 : ℚ))] ∧
    explode_sharp_angles ctx0 [((0 : ℚ), (0 : ℚ)), ((4 : ℚ), (0 : ℚ)), ((8 : ℚ), (3 : ℚ))] 45 =
      [[((0 : ℚ), (0 : ℚ)), ((4 : ℚ), (0 : ℚ)), ((8 : ℚ), (3 : ℚ))]] ∧
    (buffer_ring ctx0 [((0 : ℚ), (0 : ℚ)), ((4 : ℚ), (0 : ℚ)), ((8 : ℚ), (3 : ℚ))] (2 / 2))[4]? =
      some ((4 : ℚ), (-1 : ℚ)) ∧
    some ((4 : ℚ), (-1 : ℚ)) ≠
      some (off_pt ctx0 ((4 : ℚ), (0 : ℚ))
        (-(seg_normal ctx0 (2 / 2) ((4 : ℚ), (0 : ℚ)) ((8 : ℚ), (3 : ℚ))).1,
         -(seg_normal ctx0 (2 / 2) ((4 : ℚ), (0 : ℚ)) ((8 : ℚ), (3 : ℚ))).2)) := by
  with_unfolding_all decide

/-- C2 (amended): in the ring built for a filtered, no-sharp-turn
sequence, every interior vertex `cs[i]` appears in the forward chain at
ring index `i` displaced by `+`(half-width scaled unit normal) of the
segment ending at it, and in the backward chain at ring index
`2L - 1 - i` displaced by `-` the normal of that same segment ending at
it (not of the segment starting at it). -/
theorem C2_amended_offsets (ctx : GeoCtx) (cs : List Pt) (w : ℚ) (i : ℕ)
    (_hfil : filter_small_segments ctx cs w = cs)
    (_hexp : explode_sharp_angles ctx cs 45 = [cs])
    (h1 : 1 ≤ i) (hi : i + 1 < cs.length) :
    (buffer_ring ctx cs (w / 2))[i]? =
      some (off_pt ctx (cs.getD i (0, 0))
        ((seg_normal ctx (w / 2) (cs.getD (i - 1) (0, 0)) (cs.getD i (0, 0))).1,
         (seg_normal ctx (w / 2) (cs.getD (i - 1) (0, 0)) (cs.getD i (0, 0))).2)) ∧
    (buffer_ring ctx cs (w / 2))[2 * cs.length - 1 - i]? =
      some (off_pt ctx (cs.getD i (0, 0))
        (-(seg_normal ctx (w / 2) (cs.getD (i - 1) (0, 0)) (cs.getD i (0, 0))).1,
         -(seg_normal ctx (w / 2) (cs.getD (i - 1) (0, 0)) (cs.getD i (0, 0))).2)) := by
  rcases cs with _ | ⟨c0, _ | ⟨c1, rest⟩⟩
  · simp at hi
  · simp only [List.length_cons, List.length_nil] at hi
    omega
  · obtain ⟨k, rfl⟩ : ∃ k, i = k + 1 := ⟨i - 1, by omega⟩
    have hk : k < rest.length := by
      simp only [List.length_cons] at hi
      omega
    constructor
    · have hstep := offset_chain_getElem ctx (w / 2) 1 k (c1 :: rest) c0
        (by simp only [List.length_cons]; omega)
      simp only [one_mul] at hstep
      simp only [buffer_ring]
      rw [List.getElem?_append,
        if_pos (by simp only [List.length_cons, offset_chain_length]; omega)]
      rw [List.getElem?_cons_succ, hstep]
      simp only [List.getD_cons_succ, Nat.add_sub_cancel]
    · have hstep := offset_chain_getElem ctx (w / 2) (-1) k (c1 :: rest) c0
        (by simp only [List.length_cons]; omega)
      simp only [neg_one_mul] at hstep
      simp only [buffer_ring, List.length_cons]
      rw [List.getElem?_append_right
        (by simp only [List.length_cons, offset_chain_length]; omega)]
      simp only [List.length_cons, offset_chain_length]
      have e1 : 2 * (rest.length + 1 + 1) - 1 - (k + 1) - (rest.length + 1 + 1) =
          rest.length - k := by omega
      rw [e1]
      rw [List.getElem?_append,
        if_pos (by
          simp only [List.length_reverse, List.length_cons, offset_chain_length]; omega)]
      rw [List.getElem?_reverse
        (by simp only [List.length_cons, offset_chain_length]; omega)]
      simp only [List.length_cons, offset_chain_length]
      have e2 : rest.length + 1 + 1 - 1 - (rest.length - k) = k + 1 := by omega
      rw [e2, List.getElem?_cons_succ, hstep]
      simp only [List.getD_cons_succ, Nat.add_sub_cancel]

/-- Witness for C2 (amended): the forward and backward entries of the
interior vertex `(4,0)` in the concrete ring of `[(0,0), (4,0), (8,3)]`. -/
theorem C2_amended_offsets_witness :
    (buffer_ring ctx0 [((0 : ℚ), (0 : ℚ)), ((4 : ℚ), (0 : ℚ)), ((8 : ℚ), (3 : ℚ))] (2 / 2))[1]? =
      some (off_pt ctx0 ((4 : ℚ), (0 : ℚ))
        ((seg_normal ctx0 (2 / 2) ((0 : ℚ), (0 : ℚ)) ((4 : ℚ), (0 : ℚ))).1,
         (seg_normal ctx0 (2 / 2) ((0 : ℚ), (0 : ℚ)) ((4 : ℚ), (0 : ℚ))).2)) ∧
    (buffer_ring ctx0 [((0 : ℚ), (0 : ℚ)), ((4 : ℚ), (0 : ℚ)), ((8 : ℚ), (3 : ℚ))] (2 / 2))[4]? =
      some (off_pt ctx0 ((4 : ℚ), (0 : ℚ))
        (-(seg_normal ctx0 (2 / 2) ((0 : ℚ), (0 : ℚ)) ((4 : ℚ), (0 : ℚ))).1,
         -(seg_normal ctx0 (2 / 2) ((0 : ℚ), (0 : ℚ)) ((4 : ℚ), (0 : ℚ))).2)) :=
  C2_amended_offsets ctx0 [((0 : ℚ), (0 : ℚ)), ((4 : ℚ), (0 : ℚ)), ((8 : ℚ), (3 : ℚ))] 2 1
    (by with_unfolding_all decide) (by with_unfolding_all decide) (by decide) (by decide)

/-- C1 (code evaluation): buffering the sharp-angled 3-point line
`[(0,0), (3,4), (8,4)]` with width 4 splits it into three pieces, and the
resulting MultiPolygon's middle part is the corner square of side
`DEFAULT_WIDTH = 25` (corners at offsets of 25/2), not the width-4
square the claim requires: the source's recursive call
`geojson_linestring_to_poly(line)` omits the width argument. -/
theorem C1_recursion_uses_default_width :
    geojson_linestring_to_poly ctxSharp
        [((0 : ℚ), (0 : ℚ)), ((3 : ℚ), (4 : ℚ)), ((8 : ℚ), (4 : ℚ))] 4 =
      some (Feature.mk (PolyCoords.multiC
        [PolyCoords.polyC [[((-10 : ℚ), (15 / 2 : ℚ)), ((-7 : ℚ), (23 / 2 : ℚ)),
            ((13 : ℚ), (-7 / 2 : ℚ)), ((10 : ℚ), (-15 / 2 : ℚ)), ((-10 : ℚ), (15 / 2 : ℚ))]],
         PolyCoords.polyC [[((-19 / 2 : ℚ), (-17 / 2 : ℚ)), ((31 / 2 : ℚ), (-17 / 2 : ℚ)),
            ((31 / 2 : ℚ), (33 / 2 : ℚ)), ((-19 / 2 : ℚ), (33 / 2 : ℚ)),
            ((-19 / 2 : ℚ), (-17 / 2 : ℚ))]],
         PolyCoords.polyC [[((3 : ℚ), (33 / 2 : ℚ)), ((8 : ℚ), (33 / 2 : ℚ)),
            ((8 : ℚ), (-17 / 2 : ℚ)), ((3 : ℚ), (-17 / 2 : ℚ)), ((3 : ℚ), (33 / 2 : ℚ))]]])) ∧
    (point_to_square ctxSharp ((3 : ℚ), (4 : ℚ)) DEFAULT_WIDTH).geometry.rings =
      [[((-19 / 2 : ℚ), (-17 / 2 : ℚ)), ((31 / 2 : ℚ), (-17 / 2 : ℚ)),
        ((31 / 2 : ℚ), (33 / 2 : ℚ)), ((-19 / 2 : ℚ), (33 / 2 : ℚ)),
        ((-19 / 2 : ℚ), (-17 / 2 : ℚ))]] ∧
    (point_to_square ctxSharp ((3 : ℚ), (4 : ℚ)) 4).geometry.rings ≠
      [[((-19 / 2 : ℚ), (-17 / 2 : ℚ)), ((31 / 2 : ℚ), (-17 / 2 : ℚ)),
        ((31 / 2 : ℚ), (33 / 2 : ℚ)), ((-19 / 2 : ℚ), (33 / 2 : ℚ)),
        ((-19 / 2 : ℚ), (-17 / 2 : ℚ))]] := by
  refine ⟨by with_unfolding_all rfl, by with_unfolding_all rfl, by with_unfolding_all decide⟩

end HivePy
